import Mathlib

/-!
Verification of the dirty-detection core of the ninja build tool
(files `src/graph.h`, `src/graph_test.cc`).

The repository ships only the header `graph.h` (data model and inline
member functions) and the test file `graph_test.cc`.  Definitions below
that embed inline code of `graph.h` follow that source directly; the
algorithmic parts (`RecomputeDirty`, `RecomputeOutputDirty`,
`LoadDepFile`, `HasNonDepfileDependency`, `EvaluateCommand`) live in
`graph.cc`, which is not part of the sources, and are therefore
modelled from the specification, as indicated on each definition.
-/

namespace Ninja

abbrev Path := String

/-! ## Node (from `graph.h`, lines 32-103)

`mtime_` is a tri-state timestamp: `-1` means the file has not been
examined, `0` means we looked and the file does not exist, positive
values are actual mtimes. -/

structure Node where
  path : String
  mtime : Int
  dirty : Bool
deriving Repr, DecidableEq

/-- `Node::Node(const string& path)`: mtime `-1`, not dirty. -/
def Node.mk0 (path : String) : Node :=
  { path := path, mtime := -1, dirty := false }

/-- `Node::ResetState()`: mark as not-yet-stat()ed and not dirty. -/
def Node.ResetState (n : Node) : Node :=
  { n with mtime := -1, dirty := false }

/-- `Node::MarkMissing()`: mark as already-stat()ed and missing. -/
def Node.MarkMissing (n : Node) : Node :=
  { n with mtime := 0 }

/-- `Node::exists()`: `mtime_ != 0`. -/
def Node.existsFile (n : Node) : Bool :=
  decide (n.mtime ≠ 0)

/-- `Node::status_known()`: `mtime_ != -1`. -/
def Node.status_known (n : Node) : Bool :=
  decide (n.mtime ≠ -1)

/-! ## Command templates (`EvalString`, consumed contract, spec section 4.3)

A template is a sequence of literal fragments and references to the
special bindings `in` and `out`. -/

inductive EvalChunk where
  | lit (s : String)
  | varIn
  | varOut
deriving Repr, DecidableEq

abbrev EvalString := List EvalChunk

/-! ## Rule (from `graph.h`, lines 106-138; templates per spec section 3) -/

structure Rule where
  name : String
  command : EvalString
  depfile : Option EvalString
  rspfile_content : Option EvalString
  generator : Bool
  restat : Bool
deriving Repr, DecidableEq

/-! ## Edge (from `graph.h`, lines 145-206)

Inputs are a single ordered sequence; the counters `implicit_deps`,
`depfile_implicit_deps` and `order_only_deps` partition it into
contiguous spans (explicit, implicit, order-only, with the
depfile-discovered inputs at the end of the implicit span). -/

structure Edge where
  rule : Rule
  inputs : List Path
  outputs : List Path
  outputs_ready : Bool
  implicit_deps : Nat
  depfile_implicit_deps : Nat
  order_only_deps : Nat
deriving Repr, DecidableEq

/-- `Edge::is_order_only` (graph.h line 201):
`index >= inputs_.size() - order_only_deps_`.  The C++ subtraction is on
`size_t`; under the documented invariant
`implicit_deps + order_only_deps <= inputs.size` it never underflows, so
truncated `Nat` subtraction agrees with it. -/
def Edge.is_order_only (e : Edge) (index : Nat) : Bool :=
  decide (index ≥ e.inputs.length - e.order_only_deps)

/-- `Edge::is_implicit` (graph.h line 193). -/
def Edge.is_implicit (e : Edge) (index : Nat) : Bool :=
  decide (index ≥ e.inputs.length - e.order_only_deps - e.implicit_deps) &&
    !(e.is_order_only index)

/-- `Edge::is_depfile_implicit` (graph.h line 197). -/
def Edge.is_depfile_implicit (e : Edge) (index : Nat) : Bool :=
  decide (index ≥ e.inputs.length - e.order_only_deps - e.depfile_implicit_deps) &&
    !(e.is_order_only index)

/-- `Edge::is_phony` — true iff the rule's name is the reserved `phony`
(spec section 4.4). -/
def Edge.is_phony (e : Edge) : Bool :=
  decide (e.rule.name = "phony")

/-- The explicit inputs: the leading span of `inputs`, which surfaces as
`$in` (spec section 3). -/
def Edge.explicitInputs (e : Edge) : List Path :=
  e.inputs.take (e.inputs.length - e.implicit_deps - e.order_only_deps)

/-- The inputs that are not order-only: explicit and implicit spans. -/
def Edge.nonOrderOnlyInputs (e : Edge) : List Path :=
  ((e.inputs.enum.filter (fun ip => !(e.is_order_only ip.1))).map Prod.snd)

/-- The inputs whose position is not depfile-implicit: explicit,
manifest-declared implicit and order-only inputs (spec section 4.6,
missing-dependency reachability). -/
def Edge.nonDepfileInputs (e : Edge) : List Path :=
  ((e.inputs.enum.filter (fun ip => !(e.is_depfile_implicit ip.1))).map Prod.snd)

/-! ## Shell escaping and command evaluation

Modelled from the spec: `EvaluateCommand` is implemented in `graph.cc`,
which is not among the sources.  Spec sections 4.3 and 4.4: `in` expands
to the space-joined shell-escaped explicit inputs, `out` to the
space-joined shell-escaped outputs; shell-escaping wraps any token
containing whitespace in double quotes. -/

/-- Space-join a list of strings (the `$in` / `$out` joining). -/
def joinSep (sep : String) : List String → String
  | [] => ""
  | [x] => x
  | x :: y :: rest => x ++ sep ++ joinSep sep (y :: rest)

def shellEscape (s : String) : String :=
  if s.data.any Char.isWhitespace then "\"" ++ s ++ "\"" else s

def Edge.expandChunk (e : Edge) : EvalChunk → String
  | .lit s => s
  | .varIn => joinSep " " (e.explicitInputs.map shellEscape)
  | .varOut => joinSep " " (e.outputs.map shellEscape)

def expandEvalString (e : Edge) (es : EvalString) : String :=
  (es.map e.expandChunk).foldl (fun acc s => acc ++ s) ""

/-- Modelled from the spec: `Edge::EvaluateCommand` (declared graph.h
line 155, body in the missing `graph.cc`): expand the rule's command
template against the edge. -/
def Edge.EvaluateCommand (e : Edge) : String :=
  expandEvalString e e.rule.command

/-- Modelled from the spec (section 4.4): with `incl_rsp_file` and a
rule that has a response file, the expanded response-file content is
appended after a marker. -/
def Edge.EvaluateCommandRsp (e : Edge) (incl_rsp_file : Bool) : String :=
  match e.rule.rspfile_content with
  | some content =>
      if incl_rsp_file then
        e.EvaluateCommand ++ ";rspfile_content=" ++ expandEvalString e content
      else e.EvaluateCommand
  | none => e.EvaluateCommand

/-! ## Path canonicalization

Modelled from the spec (section 4.1): purely lexical; leading `./` is
stripped, runs of `/` collapse, `foo/../` segments collapse, trailing
`/.` is removed.  The covered tests only use relative paths, which is
the scope embedded here. -/

/-- Modelled from the spec: a helper for the lexical canonicalizer —
split a character list at every occurrence of `c`. -/
def splitOnChar (c : Char) : List Char → List (List Char)
  | [] => [[]]
  | ch :: rest =>
    if ch = c then [] :: splitOnChar c rest
    else
      match splitOnChar c rest with
      | [] => [[ch]]
      | t :: ts => (ch :: t) :: ts

def canonSegments : List String → List String → List String
  | acc, [] => acc.reverse
  | acc, seg :: rest =>
    if seg = "" ∨ seg = "." then canonSegments acc rest
    else if seg = ".." then
      match acc with
      | top :: acc2 =>
          if top = ".." then canonSegments (seg :: top :: acc2) rest
          else canonSegments acc2 rest
      | [] => canonSegments [seg] rest
    else canonSegments (seg :: acc) rest

/-- Modelled from the spec: the path canonicalizer of section 4.1 (the
implementation lives outside the shipped sources). -/
def canonicalize (p : String) : String :=
  joinSep "/" (canonSegments [] ((splitOnChar '/' p.data).map String.mk))

/-! ## Virtual file system and build log (consumed contracts, spec section 6)

`Stat` returns a positive mtime or `0` for an absent file; `ReadFile`
returns the contents when the file exists.  The build log exposes
`LookupByOutput`, of which only the recorded command string is used. -/

structure FSEntry where
  path : String
  mtime : Int
  contents : String
deriving Repr, DecidableEq

abbrev FileSystem := List FSEntry

def statPath (fs : FileSystem) (p : Path) : Int :=
  match fs.find? (fun en => decide (en.path = p)) with
  | some en => en.mtime
  | none => 0

def readFile (fs : FileSystem) (p : Path) : Option String :=
  (fs.find? (fun en => decide (en.path = p))).map FSEntry.contents

/-- A build log: recorded command string per output path.  The scan may
run without one (`build_log_` may be null in the tests). -/
abbrev BuildLog := List (Path × String)

def logLookupByOutput (entries : BuildLog) (o : Path) : Option String :=
  (entries.find? (fun en => decide (en.1 = o))).map Prod.snd

/-! ## Build state

The `State` owns node state (keyed by canonical path) and the set of
edges; edges are referenced by their index in the list.  A node that was
never touched has the freshly-constructed state (mtime `-1`, not
dirty). -/

structure NodeState where
  mtime : Int
  dirty : Bool
deriving Repr, DecidableEq

def NodeState.initial : NodeState := { mtime := -1, dirty := false }

def nodeExists (ns : NodeState) : Bool := decide (ns.mtime ≠ 0)

structure BuildState where
  edges : List Edge
  nodes : List (Path × NodeState)
deriving Repr, DecidableEq

def getNode (st : BuildState) (p : Path) : NodeState :=
  match st.nodes.find? (fun q => decide (q.1 = p)) with
  | some q => q.2
  | none => NodeState.initial

def setNode (st : BuildState) (p : Path) (ns : NodeState) : BuildState :=
  { st with nodes := (p, ns) :: st.nodes }

/-- `Node::Stat`: query the disk, record `Present(t)` or `Missing`. -/
def statNode (fs : FileSystem) (st : BuildState) (p : Path) : BuildState :=
  setNode st p { getNode st p with mtime := statPath fs p }

/-- `Node::StatIfNecessary`: a no-op if the status is already known. -/
def statIfNecessary (fs : FileSystem) (st : BuildState) (p : Path) : BuildState :=
  if decide ((getNode st p).mtime = -1) then statNode fs st p else st

def markDirty (st : BuildState) (p : Path) : BuildState :=
  setNode st p { getNode st p with dirty := true }

def setNodeDirty (st : BuildState) (p : Path) (d : Bool) : BuildState :=
  setNode st p { getNode st p with dirty := d }

def setEdge (st : BuildState) (i : Nat) (e : Edge) : BuildState :=
  { st with edges := st.edges.set i e }

def setEdgeReady (st : BuildState) (i : Nat) (v : Bool) : BuildState :=
  match st.edges.get? i with
  | some e => setEdge st i { e with outputs_ready := v }
  | none => st

/-- `State::Reset` (spec sections 3 and 4.7): return every node to
`Unknown` mtime and clear the dirty flags, keeping the graph. -/
def BuildState.Reset (st : BuildState) : BuildState :=
  { st with nodes := st.nodes.map (fun q => (q.1, NodeState.initial)) }

/-- `Node::in_edge`: the producing edge of a path — the edge that has it
among its outputs (at most one by the graph invariant; the first by
index here). -/
def inEdgeAux (p : Path) : List Edge → Nat → Option Nat
  | [], _ => none
  | e :: rest, i => if e.outputs.contains p then some i else inEdgeAux p rest (i + 1)

def inEdge (edges : List Edge) (p : Path) : Option Nat :=
  inEdgeAux p edges 0

/-! ## Depfile loading

Modelled from the spec: `DependencyScan::LoadDepFile` (declared graph.h
line 228, body in the missing `graph.cc`), spec section 4.5.  The
depfile is Makefile-style: target tokens, `:`, whitespace-separated
prerequisites, `\` before end-of-line as continuation; only the first
target rule's prerequisites are consumed (further escapes are not
exercised by the covered tests and are not modelled).  A file without a
`:` is malformed.  Each prerequisite is canonicalized and, unless it is
already an explicit or implicit input, spliced into the implicit span
immediately before the order-only span, incrementing both
`implicit_deps` and `depfile_implicit_deps`. -/

/-- The characters after the first `:`; `none` when there is no `:`
(malformed target rule). -/
def dropUntilColon : List Char → Option (List Char)
  | [] => none
  | c :: rest => if c = ':' then some rest else dropUntilColon rest

/-- `\` before end-of-line is a line continuation. -/
def replaceContinuations : List Char → List Char
  | '\\' :: '\n' :: rest => ' ' :: replaceContinuations rest
  | c :: rest => c :: replaceContinuations rest
  | [] => []

/-- The current line: everything up to the next (unescaped) newline. -/
def takeLine : List Char → List Char
  | [] => []
  | c :: rest => if c = '\n' then [] else c :: takeLine rest

/-- Modelled from the spec: the Makefile-style prerequisite parse of
sections 4.5 and 6 (format description above). -/
def parseDepfilePrereqs (content : String) : Option (List String) :=
  match dropUntilColon content.data with
  | none => none
  | some afterColon =>
    some
      (((splitOnChar ' ' (takeLine (replaceContinuations afterColon))).filter
          (fun t => decide (t ≠ []))).map String.mk)

/-- Modelled from the spec: section 4.5 step 3 — a prerequisite that is
not already an explicit or implicit input is inserted immediately before
the order-only span. -/
def spliceDepfileInput (e : Edge) (p : Path) : Edge :=
  let cut := e.inputs.length - e.order_only_deps
  if (e.inputs.take cut).contains p then e
  else
    { e with
      inputs := e.inputs.take cut ++ p :: e.inputs.drop cut,
      implicit_deps := e.implicit_deps + 1,
      depfile_implicit_deps := e.depfile_implicit_deps + 1 }

def Edge.EvaluateDepFile (e : Edge) : Option String :=
  e.rule.depfile.map (expandEvalString e)

/-- Modelled from the spec: `DependencyScan::LoadDepFile`.  The result
is `none` on a fatal error (malformed depfile) and otherwise the updated
state together with a flag telling the caller that the rule declares a
depfile which is absent on disk (spec sections 4.5 and 7: a missing
depfile is not an error; the caller decides dirtiness). -/
def loadDepFile (fs : FileSystem) (st : BuildState) (ei : Nat) :
    Option (BuildState × Bool) :=
  match st.edges.get? ei with
  | none => none
  | some e =>
    match e.EvaluateDepFile with
    | none => some (st, false)
    | some path =>
      match readFile fs path with
      | none => some (st, true)
      | some content =>
        match parseDepfilePrereqs content with
        | none => none
        | some prereqs =>
          some
            (setEdge st ei
              (prereqs.foldl (fun acc p => spliceDepfileInput acc (canonicalize p)) e),
             false)

/-! ## The dependency scan

Modelled from the spec: `DependencyScan::RecomputeDirty` and
`DependencyScan::RecomputeOutputDirty` (declared graph.h lines 217-226,
bodies in the missing `graph.cc`), spec section 4.6.  Recursion into the
producing edges of not-yet-examined inputs is bounded by fuel; a scan
that runs out of fuel fails (the graphs of the spec are acyclic, so
enough fuel always exists). -/

/-- Modelled from the spec: step 2c of the scan — the
most-recent-modification input, excluding
order-only inputs and inputs whose producing edge is phony and whose own
mtime is `Missing`; ties broken by manifest order, earliest wins. -/
def mostRecentCandidates (st : BuildState) (e : Edge) : List Path :=
  ((e.inputs.enum.filter (fun ip =>
      !(e.is_order_only ip.1) &&
      !(match inEdge st.edges ip.2 with
        | some pe =>
          (match st.edges.get? pe with
           | some pedge => pedge.is_phony && !(nodeExists (getNode st ip.2))
           | none => false)
        | none => false))).map Prod.snd)

def mostRecentInput (st : BuildState) (e : Edge) : Option Path :=
  (mostRecentCandidates st e).foldl
    (fun acc p =>
      match acc with
      | none => some p
      | some m =>
        if decide ((getNode st p).mtime > (getNode st m).mtime) then some p else acc)
    none

/-- Modelled from the spec: rule 4 of per-output dirtiness (section
4.6) — the rule is not a
generator and the build log either records a different command for the
output or has no record at all (never built).  Without a build log the
check is skipped (`build_log_` may be null). -/
def commandDirty (log : Option BuildLog) (e : Edge) (command : String) (o : Path) :
    Bool :=
  match log with
  | none => false
  | some entries =>
    if e.rule.generator then false
    else
      match logLookupByOutput entries o with
      | some prev => decide (prev ≠ command)
      | none => true

/-- Modelled from the spec: `DependencyScan::RecomputeOutputDirty`
(spec section 4.6, per-output dirtiness rules 1-5 in priority order;
phony edges with no inputs are never dirty; rules 1 and 5 range over the
explicit and implicit inputs — order-only inputs never cause
rebuilds). -/
def recomputeOutputDirty (log : Option BuildLog) (st : BuildState) (e : Edge)
    (most_recent : Option Path) (command : String) (o : Path) : Bool :=
  if e.is_phony && e.inputs.isEmpty then false
  else
    (e.is_phony && (e.nonOrderOnlyInputs.any (fun p => !(nodeExists (getNode st p))))) ||
    (!(nodeExists (getNode st o))) ||
    (match most_recent with
     | some m => decide ((getNode st m).mtime > (getNode st o).mtime)
     | none => false) ||
    commandDirty log e command o ||
    (e.nonOrderOnlyInputs.any (fun p => (getNode st p).dirty))

/-- Modelled from the spec: readiness formula, step 6 of the scan —
every non-order-only input's
producing edge has `outputs_ready` (sources qualify trivially). -/
def edgeInputsReady (st : BuildState) (e : Edge) : Bool :=
  e.nonOrderOnlyInputs.all (fun p =>
    match inEdge st.edges p with
    | some pe =>
      (match st.edges.get? pe with
       | some pedge => pedge.outputs_ready
       | none => true)
    | none => true)

/-- No output of the edge is dirty. -/
def edgeOutputsClean (st : BuildState) (e : Edge) : Bool :=
  e.outputs.all (fun o => !(getNode st o).dirty)

/-- Modelled from the spec: step 3 of the scan — stat each output. -/
def statOutputs (fs : FileSystem) (st : BuildState) (outs : List Path) : BuildState :=
  outs.foldl (fun acc o => statIfNecessary fs acc o) st

/-- Modelled from the spec: step 5 of the scan — decide each output's
dirty flag from the
post-input-walk state `st3` (a declared-but-missing depfile makes the
outputs rebuild, scenario S5). -/
def markOutputs (log : Option BuildLog) (st3 : BuildState) (e : Edge)
    (depfileMissing : Bool) : BuildState :=
  e.outputs.foldl
    (fun acc o =>
      setNodeDirty acc o
        (depfileMissing ||
          recomputeOutputDirty log st3 e (mostRecentInput st3 e)
            (e.EvaluateCommandRsp true) o))
    st3

/-- Modelled from the spec: steps 3-6 of the scan, after the inputs
have been walked — stat the
outputs, decide each output's dirty flag, then set `outputs_ready`. -/
def finishEdge (log : Option BuildLog) (fs : FileSystem) (st : BuildState)
    (ei : Nat) (depfileMissing : Bool) : BuildState :=
  match st.edges.get? ei with
  | none => st
  | some e =>
    let st4 := markOutputs log (statOutputs fs st e.outputs) e depfileMissing
    setEdgeReady st4 ei (edgeOutputsClean st4 e && edgeInputsReady st4 e)

/-- Modelled from the spec: step 2 of the scan, for one input — stat it
if necessary and, when a
stat was needed, recurse into its producing edge, or mark a missing
source input dirty (node absence is a normal dirty-making condition,
spec section 7). -/
def scanInput (fs : FileSystem) (rec : BuildState → Nat → Option BuildState)
    (st : BuildState) (p : Path) : Option BuildState :=
  if decide ((getNode st p).mtime = -1) then
    let st1 := statNode fs st p
    match inEdge st1.edges p with
    | some pe => rec st1 pe
    | none =>
      some (if nodeExists (getNode st1 p) then st1 else markDirty st1 p)
  else some st

/-- Modelled from the spec: `DependencyScan::RecomputeDirty` (spec
section 4.6): load the depfile, walk the inputs in manifest order
(recursing into not-yet-scanned producing edges), then decide the
outputs' dirty flags and the edge's readiness. -/
def recomputeDirty (fs : FileSystem) (log : Option BuildLog) :
    Nat → BuildState → Nat → Option BuildState
  | 0, _, _ => none
  | fuel + 1, st, ei =>
    match loadDepFile fs st ei with
    | none => none
    | some sd =>
      match sd.1.edges.get? ei with
      | none => none
      | some e =>
        match e.inputs.foldlM
            (scanInput fs (fun s j => recomputeDirty fs log fuel s j)) sd.1 with
        | none => none
        | some st2 => some (finishEdge log fs st2 ei sd.2)

/-! ## Missing-dependency reachability

Modelled from the spec: `DependencyScan::HasNonDepfileDependency`
(declared graph.h line 239, body in the missing `graph.cc`), spec
section 4.6: a depth-first search from the start edge that crosses only
inputs whose position is not depfile-implicit and steps from a node to
its producing edge, robust to repeated visits through a mark-set. -/

/-- Modelled from the spec: the recursive worker
`HasNonDepfileDependency_R` (declared graph.h line 246). -/
def hasNDDAux (g : List Edge) (target : Path) :
    Nat → List Nat → Nat → Bool
  | 0, _, _ => false
  | fuel + 1, visited, ei =>
    if decide (ei ∈ visited) then false
    else
      match g.get? ei with
      | none => false
      | some e =>
        e.nonDepfileInputs.any (fun p =>
          decide (p = target) ||
          (match inEdge g p with
           | some pe => hasNDDAux g target fuel (ei :: visited) pe
           | none => false))

/-- Modelled from the spec: `DependencyScan::HasNonDepfileDependency`
(traversal description in section 4.6). -/
def HasNonDepfileDependency (g : List Edge) (ei : Nat) (n : Path) : Bool :=
  hasNDDAux g n g.length [] ei

/-- The declarative reading of the spec's reachability contract: there
is a path from the edge to the node that, at every edge crossed, uses
only inputs whose position is not depfile-implicit. -/
inductive NDDReach (g : List Edge) (n : Path) : Nat → Prop where
  | direct {ei e} : g.get? ei = some e → n ∈ e.nonDepfileInputs → NDDReach g n ei
  | step {ei e p pe} : g.get? ei = some e → p ∈ e.nonDepfileInputs →
      inEdge g p = some pe → NDDReach g n pe → NDDReach g n ei

/-- An explicit non-depfile path through the graph: the list records the
successive producing edges stepped into, with the target reached as a
non-depfile input of the last one. -/
inductive PathFrom (g : List Edge) (n : Path) : Nat → List Nat → Prop where
  | nil {ei e} : g.get? ei = some e → n ∈ e.nonDepfileInputs → PathFrom g n ei []
  | cons {ei e p pe l} : g.get? ei = some e → p ∈ e.nonDepfileInputs →
      inEdge g p = some pe → PathFrom g n pe l → PathFrom g n ei (pe :: l)

/-! ## Concrete manifests (the scenarios of spec section 8)

The builtin `cat` rule of the test harness has command
`cat $in > $out`; `catdep` additionally declares `depfile = $out.d`. -/

def rule_cat : Rule :=
  { name := "cat", command := [.lit "cat ", .varIn, .lit " > ", .varOut],
    depfile := none, rspfile_content := none, generator := false, restat := false }

def rule_catdep : Rule :=
  { name := "catdep", command := [.lit "cat ", .varIn, .lit " > ", .varOut],
    depfile := some [.varOut, .lit ".d"], rspfile_content := none,
    generator := false, restat := false }

def rule_phony : Rule :=
  { name := "phony", command := [], depfile := none, rspfile_content := none,
    generator := false, restat := false }

def mkEdge (r : Rule) (ins outs : List Path) (imp dep oo : Nat) : Edge :=
  { rule := r, inputs := ins, outputs := outs, outputs_ready := false,
    implicit_deps := imp, depfile_implicit_deps := dep, order_only_deps := oo }

/-- Scenario S1/S2 manifest: `build out: cat in | implicit`. -/
def s1edge : Edge := mkEdge rule_cat ["in", "implicit"] ["out"] 1 0 0

/-- S1: files `in@1`, `out@1`, `implicit` absent. -/
def s1fs : FileSystem := [⟨"in", 1, ""⟩, ⟨"out", 1, ""⟩]

def s1st : BuildState := { edges := [s1edge], nodes := [] }

/-- S2: files `in@1`, `out@1`, `implicit@2`. -/
def s2fs : FileSystem := [⟨"in", 1, ""⟩, ⟨"out", 1, ""⟩, ⟨"implicit", 2, ""⟩]

/-- Scenario S3 manifest: `build out.o: catdep foo.cc`. -/
def s3edge : Edge := mkEdge rule_catdep ["foo.cc"] ["out.o"] 0 0 0

/-- S3 files: `implicit.h@2`, `foo.cc@1`, `out.o@1`, and `out.o.d`
naming `./foo/../implicit.h` as prerequisite. -/
def s3fs : FileSystem :=
  [⟨"implicit.h", 2, ""⟩, ⟨"foo.cc", 1, ""⟩,
   ⟨"out.o.d", 1, "out.o: ./foo/../implicit.h\n"⟩, ⟨"out.o", 1, ""⟩]

def s3st : BuildState := { edges := [s3edge], nodes := [] }

/-- Scenario S4/S5 manifest: `build ./out.o: catdep ./foo.cc`; the
parser canonicalizes both paths on node lookup (spec section 4.7). -/
def s4edge : Edge :=
  mkEdge rule_catdep [canonicalize "./foo.cc"] [canonicalize "./out.o"] 0 0 0

/-- S4 files: `foo.cc@1`, `out.o@1`, and `out.o.d` naming
`bar/../foo.cc` as prerequisite. -/
def s4fs : FileSystem :=
  [⟨"foo.cc", 1, ""⟩, ⟨"out.o.d", 1, "out.o: bar/../foo.cc\n"⟩, ⟨"out.o", 1, ""⟩]

def s4st : BuildState := { edges := [s4edge], nodes := [] }

/-- S5 first files: `foo.h@1`, `foo.cc@1`, `out.o@2`, `out.o.d@2`
containing `out.o: foo.h`. -/
def s5fs1 : FileSystem :=
  [⟨"foo.h", 1, ""⟩, ⟨"foo.cc", 1, ""⟩,
   ⟨"out.o.d", 2, "out.o: foo.h\n"⟩, ⟨"out.o", 2, ""⟩]

/-- S5 after `RemoveFile("out.o.d")`. -/
def s5fs2 : FileSystem := [⟨"foo.h", 1, ""⟩, ⟨"foo.cc", 1, ""⟩, ⟨"out.o", 2, ""⟩]

def s5st0 : BuildState := { edges := [s4edge], nodes := [] }

/-- The state after the first S5 scan. -/
def s5st1 : BuildState := (recomputeDirty s5fs1 none 4 s5st0 0).getD s5st0

/-- The DepCheckIndirect graph (scenario S6): `out1.o` lacks any
manifest dependency on `generated.h`; `out2.o` reaches it through the
implicit input `headers.stamp` and the phony edge; `out3.o` through the
order-only input `headers.stamp`. -/
def dcEdges : List Edge :=
  [mkEdge rule_catdep ["out.cc"] ["out1.o"] 0 0 0,
   mkEdge rule_catdep ["out.cc", "headers.stamp"] ["out2.o"] 1 0 0,
   mkEdge rule_catdep ["out.cc", "headers.stamp"] ["out3.o"] 0 0 1,
   mkEdge rule_phony ["generated.h"] ["headers.stamp"] 0 0 0,
   mkEdge rule_cat ["src.h"] ["generated.h"] 0 0 0]

/-- The VarInOutQuoteSpaces edge: `build a$ b: cat nospace with$ space
nospace2` — explicit inputs `nospace`, `with space`, `nospace2` and
output `a b`. -/
def quoteEdge : Edge :=
  mkEdge rule_cat ["nospace", "with space", "nospace2"] ["a b"] 0 0 0

/-- A fully populated edge for witnesses about the positional
predicates: five inputs, two implicit (one of them from a depfile), one
order-only. -/
def partitionEdge : Edge :=
  mkEdge rule_cat ["e1", "e2", "i1", "i2", "oo1"] ["o"] 2 1 1

/-- The final state of the S4 scan (used to witness the readiness
invariant: `out.o` ends clean and ready). -/
def c7stF : BuildState := (recomputeDirty s4fs none 4 s4st 0).getD s4st

/-- The scanned S4 edge in its final state. -/
def c7e2 : Edge := (c7stF.edges.get? 0).getD s4edge

/-! # Theorems -/

/-- Claim C10: a freshly constructed node, and any node after
`ResetState`, has `exists() = true` and `status_known() = false`;
`exists()` is false exactly when the mtime is `Missing` (0), which
`MarkMissing` produces — so `exists` does not imply the file was ever
observed on disk. -/
theorem node_exists_does_not_imply_observed :
    (∀ p, (Node.mk0 p).existsFile = true ∧ (Node.mk0 p).status_known = false) ∧
    (∀ n : Node, n.ResetState.existsFile = true ∧ n.ResetState.status_known = false) ∧
    (∀ n : Node, n.existsFile = false ↔ n.mtime = 0) ∧
    (∀ n : Node, n.MarkMissing.existsFile = false) := by
  refine ⟨fun p => ⟨rfl, rfl⟩, fun n => ⟨rfl, rfl⟩, fun n => ?_, fun n => ?_⟩
  · simp [Node.existsFile]
  · simp [Node.existsFile, Node.MarkMissing]

/-- Witness for C10 at a concrete node. -/
theorem node_exists_does_not_imply_observed_witness :
    (Node.mk0 "x").existsFile = true ∧
    ((Node.mk0 "x").MarkMissing.existsFile = false ↔ (Node.mk0 "x").MarkMissing.mtime = 0) := by
  exact ⟨(node_exists_does_not_imply_observed.1 "x").1,
    by rw [node_exists_does_not_imply_observed.2.2.1]⟩

/-- Claim C8: under the edge invariants
`implicit_deps + order_only_deps ≤ inputs.size` and
`depfile_implicit_deps ≤ implicit_deps`, with `n = inputs.size`:
`is_order_only i` iff `i ≥ n - order_only_deps`; `is_implicit i` iff
`n - order_only_deps - implicit_deps ≤ i < n - order_only_deps`;
`is_depfile_implicit` implies `is_implicit`, and the depfile-implicit
indices are exactly the last `depfile_implicit_deps` positions of the
implicit span, immediately before the order-only span. -/
theorem input_class_partition (e : Edge)
    (h1 : e.implicit_deps + e.order_only_deps ≤ e.inputs.length)
    (h2 : e.depfile_implicit_deps ≤ e.implicit_deps) (i : Nat) :
    (e.is_order_only i = true ↔ e.inputs.length - e.order_only_deps ≤ i) ∧
    (e.is_implicit i = true ↔
      (e.inputs.length - e.order_only_deps - e.implicit_deps ≤ i ∧
       i < e.inputs.length - e.order_only_deps)) ∧
    (e.is_depfile_implicit i = true → e.is_implicit i = true) ∧
    (e.is_depfile_implicit i = true ↔
      (e.inputs.length - e.order_only_deps - e.depfile_implicit_deps ≤ i ∧
       i < e.inputs.length - e.order_only_deps)) := by
  refine ⟨?_, ?_, ?_, ?_⟩
  · simp [Edge.is_order_only]
  · simp only [Edge.is_implicit, Edge.is_order_only, Bool.and_eq_true, Bool.not_eq_true',
      decide_eq_true_eq, decide_eq_false_iff_not, ge_iff_le, not_le]
  · simp only [Edge.is_depfile_implicit, Edge.is_implicit, Edge.is_order_only,
      Bool.and_eq_true, Bool.not_eq_true', decide_eq_true_eq, decide_eq_false_iff_not,
      ge_iff_le, not_le]
    omega
  · simp only [Edge.is_depfile_implicit, Edge.is_order_only, Bool.and_eq_true,
      Bool.not_eq_true', decide_eq_true_eq, decide_eq_false_iff_not, ge_iff_le, not_le]

/-- Witness for C8 on a concrete edge (5 inputs, 2 implicit of which 1
depfile-discovered, 1 order-only) at index 3. -/
theorem input_class_partition_witness :
    (partitionEdge.is_order_only 3 = true ↔
      partitionEdge.inputs.length - partitionEdge.order_only_deps ≤ 3) ∧
    (partitionEdge.is_implicit 3 = true ↔
      (partitionEdge.inputs.length - partitionEdge.order_only_deps -
          partitionEdge.implicit_deps ≤ 3 ∧
       3 < partitionEdge.inputs.length - partitionEdge.order_only_deps)) ∧
    (partitionEdge.is_depfile_implicit 3 = true → partitionEdge.is_implicit 3 = true) ∧
    (partitionEdge.is_depfile_implicit 3 = true ↔
      (partitionEdge.inputs.length - partitionEdge.order_only_deps -
          partitionEdge.depfile_implicit_deps ≤ 3 ∧
       3 < partitionEdge.inputs.length - partitionEdge.order_only_deps)) :=
  input_class_partition partitionEdge (by decide) (by decide) 3

/-- Claim C9: `EvaluateCommand` expands the command template with `$in`
the space-joined explicit inputs and `$out` the space-joined outputs,
double-quoting exactly the tokens containing whitespace: for manifest
`build a$ b: cat nospace with$ space nospace2` the command is
`cat nospace "with space" nospace2 > "a b"`. -/
theorem evaluateCommand_quotes_spaces :
    quoteEdge.EvaluateCommand = "cat nospace \"with space\" nospace2 > \"a b\"" := by
  decide

/-- Claim C2 (scenario S1): with manifest `build out: cat in | implicit`
and files `in@1`, `out@1` but `implicit` absent, a successful
`RecomputeDirty` marks `out` dirty even though no existing input is
newer than the output. -/
theorem missing_implicit_marks_output_dirty :
    statPath s1fs "in" = 1 ∧ statPath s1fs "out" = 1 ∧ statPath s1fs "implicit" = 0 ∧
    (recomputeDirty s1fs none 4 s1st 0).map (fun st => (getNode st "out").dirty) =
      some true :=
  ⟨rfl, rfl, rfl, rfl⟩

/-- Claim C5 (scenarios S3 and S4): canonicalization identifies the
depfile prerequisite `./foo/../implicit.h` with the node `implicit.h`
(whose newer mtime dirties `out.o`), and identifies `bar/../foo.cc` with
the declared explicit input `foo.cc`, so no implicit input is added and
`out.o` stays clean. -/
theorem canonicalization_unifies_depfile_and_manifest :
    canonicalize "./foo/../implicit.h" = "implicit.h" ∧
    (recomputeDirty s3fs none 4 s3st 0).map (fun st => (getNode st "out.o").dirty) =
      some true ∧
    canonicalize "bar/../foo.cc" = "foo.cc" ∧
    (recomputeDirty s4fs none 4 s4st 0).map (fun st => (getNode st "out.o").dirty) =
      some false ∧
    (recomputeDirty s4fs none 4 s4st 0).map (fun st => (st.edges.get? 0).map Edge.inputs) =
      some (some ["foo.cc"]) := by
  refine ⟨by decide, by decide, by decide, by decide, by decide⟩

/-- Claim C6: a depfile absent on disk is not an error — `LoadDepFile`
succeeds with the state unchanged (no added implicit inputs) — and in
scenario S5 the first scan leaves `out.o` clean while, after `Reset` and
deletion of `out.o.d`, the rescan succeeds and marks `out.o` dirty. -/
theorem missing_depfile_is_not_an_error :
    (∀ (fs : FileSystem) (st : BuildState) (ei : Nat) (e : Edge) (path : String),
      st.edges.get? ei = some e → e.EvaluateDepFile = some path →
      readFile fs path = none → loadDepFile fs st ei = some (st, true)) ∧
    (recomputeDirty s5fs1 none 4 s5st0 0).map (fun st => (getNode st "out.o").dirty) =
      some false ∧
    (recomputeDirty s5fs2 none 4 s5st1.Reset 0).map (fun st => (getNode st "out.o").dirty) =
      some true := by
  refine ⟨fun fs st ei e path h1 h2 h3 => ?_, by decide, by decide⟩
  simp only [loadDepFile, h1, h2, h3]

/-- Witness for C6: the rescan state of S5 itself, whose depfile
`out.o.d` no longer exists. -/
theorem missing_depfile_is_not_an_error_witness :
    loadDepFile s5fs2 s5st1.Reset 0 = some (s5st1.Reset, true) :=
  missing_depfile_is_not_an_error.1 s5fs2 s5st1.Reset 0
    (((s5st1.Reset).edges.get? 0).getD s4edge) "out.o.d" (by decide) (by decide) (by decide)

/-- Claim C1: for a non-phony edge whose output exists, when neither the
command-change rule nor input-dirtiness propagation fires, the output is
dirty exactly when the most-recent non-order-only input exists and its
mtime is strictly greater than the output's — equal mtimes do not make
the output dirty. -/
theorem output_dirty_by_mtime_iff_strictly_newer (log : Option BuildLog)
    (st : BuildState) (e : Edge) (command : String) (o : Path)
    (hph : e.rule.name ≠ "phony")
    (hex : nodeExists (getNode st o) = true)
    (hcmd : commandDirty log e command o = false)
    (hcln : ∀ p ∈ e.nonOrderOnlyInputs, (getNode st p).dirty = false) :
    recomputeOutputDirty log st e (mostRecentInput st e) command o = true ↔
      ∃ m, mostRecentInput st e = some m ∧
        (getNode st m).mtime > (getNode st o).mtime := by
  have hph2 : e.is_phony = false := by simp [Edge.is_phony, hph]
  have hany : e.nonOrderOnlyInputs.any (fun p => (getNode st p).dirty) = false := by
    rw [List.any_eq_false]
    intro p hp
    simp [hcln p hp]
  unfold recomputeOutputDirty
  rw [hph2, hex, hcmd, hany]
  simp only [Bool.false_and, if_false, Bool.false_or, Bool.or_false, Bool.not_true]
  cases hmr : mostRecentInput st e with
  | none => simp
  | some m => simp

/-- Witness for C1, in the S2 situation after the inputs were scanned:
`in@1`, `implicit@2`, `out@1`; the most recent input is `implicit` and
it is strictly newer, so the iff is inhabited on both sides. -/
theorem output_dirty_by_mtime_iff_strictly_newer_witness :
    recomputeOutputDirty none
        { edges := [s1edge],
          nodes := [("in", ⟨1, false⟩), ("implicit", ⟨2, false⟩), ("out", ⟨1, false⟩)] }
        s1edge
        (mostRecentInput
          { edges := [s1edge],
            nodes := [("in", ⟨1, false⟩), ("implicit", ⟨2, false⟩), ("out", ⟨1, false⟩)] }
          s1edge)
        (s1edge.EvaluateCommandRsp true) "out" = true ↔
      ∃ m,
        mostRecentInput
            { edges := [s1edge],
              nodes := [("in", ⟨1, false⟩), ("implicit", ⟨2, false⟩), ("out", ⟨1, false⟩)] }
            s1edge = some m ∧
          (getNode
              { edges := [s1edge],
                nodes := [("in", ⟨1, false⟩), ("implicit", ⟨2, false⟩), ("out", ⟨1, false⟩)] }
              m).mtime >
            (getNode
                { edges := [s1edge],
                  nodes := [("in", ⟨1, false⟩), ("implicit", ⟨2, false⟩), ("out", ⟨1, false⟩)] }
                "out").mtime :=
  output_dirty_by_mtime_iff_strictly_newer none _ s1edge _ "out"
    (by decide) (by decide) (by decide) (by decide)

/-- Claim C4: for an output of a non-generator (and non-phony) edge,
when the build log is present, a recorded command that differs from
`EvaluateCommand(include_rsp=true)` makes the output dirty regardless of
any mtime, and a missing record (never built) likewise makes it
dirty. -/
theorem command_change_or_never_built_is_dirty (entries : BuildLog)
    (st : BuildState) (e : Edge) (mr : Option Path) (command : String) (o : Path)
    (hgen : e.rule.generator = false)
    (hph : e.rule.name ≠ "phony") :
    (∀ prev, logLookupByOutput entries o = some prev → prev ≠ command →
      recomputeOutputDirty (some entries) st e mr command o = true) ∧
    (logLookupByOutput entries o = none →
      recomputeOutputDirty (some entries) st e mr command o = true) := by
  have hph2 : e.is_phony = false := by simp [Edge.is_phony, hph]
  constructor
  · intro prev hlook hne
    have hcd : commandDirty (some entries) e command o = true := by
      rw [commandDirty, hgen, hlook]
      simp [hne]
    unfold recomputeOutputDirty
    rw [hph2, hcd]
    simp
  · intro hlook
    have hcd : commandDirty (some entries) e command o = true := by
      rw [commandDirty, hgen, hlook]
      simp
    unfold recomputeOutputDirty
    rw [hph2, hcd]
    simp

/-- Witness for C4: the S1 edge with a log recording a stale command for
`out`, and also with no record at all. -/
theorem command_change_or_never_built_is_dirty_witness :
    recomputeOutputDirty (some [("out", "stale command")]) s1st s1edge none
        (s1edge.EvaluateCommandRsp true) "out" = true ∧
    recomputeOutputDirty (some []) s1st s1edge none
        (s1edge.EvaluateCommandRsp true) "out" = true :=
  ⟨(command_change_or_never_built_is_dirty [("out", "stale command")] s1st s1edge none
      (s1edge.EvaluateCommandRsp true) "out" (by decide) (by decide)).1
      "stale command" (by decide) (by decide),
   (command_change_or_never_built_is_dirty [] s1st s1edge none
      (s1edge.EvaluateCommandRsp true) "out" (by decide) (by decide)).2 (by decide)⟩

/-! ## Reachability: the depth-first search decides `NDDReach` -/

theorem inEdgeAux_lt (p : Path) :
    ∀ (l : List Edge) (i j : Nat), inEdgeAux p l i = some j → j < i + l.length := by
  intro l
  induction l with
  | nil => intro i j h; simp [inEdgeAux] at h
  | cons e rest ih =>
    intro i j h
    rw [inEdgeAux] at h
    by_cases hc : e.outputs.contains p
    · rw [if_pos hc] at h
      have : i = j := by exact Option.some.inj h
      subst this
      simp
    · rw [if_neg hc] at h
      have := ih (i + 1) j h
      simp only [List.length_cons]
      omega

theorem inEdge_lt (g : List Edge) (p : Path) (j : Nat) (h : inEdge g p = some j) :
    j < g.length := by
  have := inEdgeAux_lt p g 0 j h
  omega

theorem get?_some_lt {α : Type} (l : List α) (i : Nat) (a : α) (h : l.get? i = some a) :
    i < l.length := by
  by_contra hc
  rw [List.get?_eq_none.mpr (Nat.le_of_not_lt hc)] at h
  exact Option.noConfusion h

/-- Every edge index along a non-depfile path is a valid index. -/
theorem pathFrom_valid (g : List Edge) (n : Path) :
    ∀ (ei : Nat) (l : List Nat), PathFrom g n ei l →
      ei < g.length ∧ ∀ x ∈ l, x < g.length := by
  intro ei l hp
  induction hp with
  | nil heq _ => exact ⟨get?_some_lt _ _ _ heq, by simp⟩
  | cons heq _ hedge _ ih =>
    refine ⟨get?_some_lt _ _ _ heq, ?_⟩
    intro x hx
    rcases List.mem_cons.mp hx with hx | hx
    · subst hx; exact ih.1
    · exact ih.2 x hx

/-- A path restarted at any edge it crosses is still a path. -/
theorem pathFrom_suffix (g : List Edge) (n : Path) :
    ∀ (l1 : List Nat) (ei x : Nat) (l2 : List Nat),
      PathFrom g n ei (l1 ++ x :: l2) → PathFrom g n x l2 := by
  intro l1
  induction l1 with
  | nil =>
    intro ei x l2 hp
    rw [List.nil_append] at hp
    cases hp with
    | cons heq hmem hedge htail => exact htail
  | cons y l1 ih =>
    intro ei x l2 hp
    rw [List.cons_append] at hp
    cases hp with
    | cons heq hmem hedge htail => exact ih _ _ _ htail

/-- Any non-depfile path can be shortened to one that crosses each edge
at most once, using only edges of the original path. -/
theorem pathFrom_dedup (g : List Edge) (n : Path) :
    ∀ (k : Nat) (l : List Nat) (ei : Nat), l.length ≤ k → PathFrom g n ei l →
      ∃ l2, PathFrom g n ei l2 ∧ (ei :: l2).Nodup ∧ (∀ x ∈ l2, x ∈ l) ∧
        l2.length ≤ l.length := by
  intro k
  induction k with
  | zero =>
    intro l ei hlen hp
    have hl : l = [] := List.length_eq_zero.mp (Nat.le_zero.mp hlen)
    subst hl
    exact ⟨[], hp, by simp, by simp, by simp⟩
  | succ k ih =>
    intro l ei hlen hp
    by_cases hmem : ei ∈ l
    · obtain ⟨l1, l2, rfl⟩ := List.append_of_mem hmem
      have hsuf : PathFrom g n ei l2 := pathFrom_suffix g n l1 ei ei l2 hp
      have hlen2 : l2.length ≤ k := by
        rw [List.length_append, List.length_cons] at hlen
        omega
      obtain ⟨l3, hp3, hnd3, hsub3, hlen3⟩ := ih l2 ei hlen2 hsuf
      refine ⟨l3, hp3, hnd3, ?_, ?_⟩
      · intro x hx
        rw [List.mem_append, List.mem_cons]
        exact Or.inr (Or.inr (hsub3 x hx))
      · rw [List.length_append, List.length_cons]
        omega
    · cases hp with
      | nil heq hmem2 =>
        exact ⟨[], PathFrom.nil heq hmem2, by simp, by simp, by simp⟩
      | @cons _ e p pe l2 heq hmemp hedge htail =>
        have hlen2 : l2.length ≤ k := by
          rw [List.length_cons] at hlen
          omega
        obtain ⟨l3, hp3, hnd3, hsub3, hlen3⟩ := ih l2 pe hlen2 htail
        refine ⟨pe :: l3, PathFrom.cons heq hmemp hedge hp3, ?_, ?_, ?_⟩
        · rw [List.nodup_cons]
          refine ⟨?_, hnd3⟩
          rw [List.mem_cons]
          rintro (h | h)
          · exact hmem (h ▸ List.mem_cons_self pe l2)
          · exact hmem (List.mem_cons_of_mem pe (hsub3 ei h))
        · intro x hx
          rcases List.mem_cons.mp hx with hx | hx
          · exact hx ▸ List.mem_cons_self pe l2
          · exact List.mem_cons_of_mem pe (hsub3 x hx)
        · simp only [List.length_cons]
          omega

theorem nddReach_to_pathFrom (g : List Edge) (n : Path) (ei : Nat)
    (h : NDDReach g n ei) : ∃ l, PathFrom g n ei l := by
  induction h with
  | direct heq hmem => exact ⟨[], PathFrom.nil heq hmem⟩
  | step heq hmem hedge _ ih =>
    obtain ⟨l, hl⟩ := ih
    exact ⟨_ :: l, PathFrom.cons heq hmem hedge hl⟩

theorem pathFrom_to_nddReach (g : List Edge) (n : Path) :
    ∀ (ei : Nat) (l : List Nat), PathFrom g n ei l → NDDReach g n ei := by
  intro ei l hp
  induction hp with
  | nil heq hmem => exact NDDReach.direct heq hmem
  | cons heq hmem hedge _ ih => exact NDDReach.step heq hmem hedge ih

/-- Soundness: a successful search yields a declarative path. -/
theorem hasNDDAux_sound (g : List Edge) (n : Path) :
    ∀ (fuel : Nat) (visited : List Nat) (ei : Nat),
      hasNDDAux g n fuel visited ei = true → NDDReach g n ei := by
  intro fuel
  induction fuel with
  | zero => intro visited ei h; rw [hasNDDAux] at h; exact Bool.noConfusion h
  | succ fuel ih =>
    intro visited ei h
    rw [hasNDDAux] at h
    split at h
    · exact Bool.noConfusion h
    · split at h
      · exact Bool.noConfusion h
      · rename_i heq
        rw [List.any_eq_true] at h
        obtain ⟨p, hmem, hor⟩ := h
        rw [Bool.or_eq_true] at hor
        rcases hor with hor | hor
        · rw [decide_eq_true_eq] at hor
          exact NDDReach.direct heq (hor ▸ hmem)
        · split at hor
          · rename_i pe hedge
            exact NDDReach.step heq hmem hedge (ih _ _ hor)
          · exact Bool.noConfusion hor

/-- Completeness: a duplicate-free declarative path avoiding the mark
set and fitting in the fuel makes the search succeed. -/
theorem hasNDDAux_complete (g : List Edge) (n : Path) :
    ∀ (fuel : Nat) (l : List Nat) (visited : List Nat) (ei : Nat),
      PathFrom g n ei l → l.length < fuel → (ei :: l).Nodup →
      (∀ x ∈ ei :: l, x ∉ visited) → hasNDDAux g n fuel visited ei = true := by
  intro fuel
  induction fuel with
  | zero => intro l visited ei _ hlen _ _; omega
  | succ fuel ih =>
    intro l visited ei hp hlen hnd hvis
    rw [hasNDDAux]
    have hni : ei ∉ visited := hvis ei (List.mem_cons_self ei l)
    rw [decide_eq_false hni]
    simp only [Bool.false_eq_true, if_false]
    cases hp with
    | nil heq hmem =>
      rw [heq, List.any_eq_true]
      exact ⟨n, hmem, by simp⟩
    | @cons _ e p pe l2 heq hmemp hedge htail =>
      rw [heq, List.any_eq_true]
      refine ⟨p, hmemp, ?_⟩
      rw [Bool.or_eq_true]
      right
      rw [hedge]
      refine ih l2 (ei :: visited) pe htail ?_ ?_ ?_
      · rw [List.length_cons] at hlen; omega
      · exact (List.nodup_cons.mp hnd).2
      · intro x hx
        rw [List.mem_cons]
        rintro (h | h)
        · subst h
          exact (List.nodup_cons.mp hnd).1 hx
        · exact hvis x (List.mem_cons_of_mem ei hx) h

theorem nodup_nat_length_le (l : List Nat) (m : Nat) (hnd : l.Nodup)
    (hlt : ∀ x ∈ l, x < m) : l.length ≤ m := by
  have h1 : l.toFinset ⊆ Finset.range m := by
    intro x hx
    exact Finset.mem_range.mpr (hlt x (List.mem_toFinset.mp hx))
  have h2 := Finset.card_le_card h1
  rwa [List.toFinset_card_of_nodup hnd, Finset.card_range] at h2

/-- Claim C3: `HasNonDepfileDependency(E, N)` returns true iff there is
a path in the graph from edge `E` to node `N` that at every edge crossed
uses only inputs whose position is not depfile-implicit (explicit,
manifest-declared implicit and order-only inputs all count, and the path
may step through the producing edges — phony or not — of intermediate
nodes). -/
theorem hasNonDepfileDependency_iff_reach (g : List Edge) (ei : Nat) (n : Path) :
    HasNonDepfileDependency g ei n = true ↔ NDDReach g n ei := by
  constructor
  · exact fun h => hasNDDAux_sound g n g.length [] ei h
  · intro h
    obtain ⟨l, hp⟩ := nddReach_to_pathFrom g n ei h
    obtain ⟨l2, hp2, hnd2, _, _⟩ := pathFrom_dedup g n l.length l ei (Nat.le_refl _) hp
    have hvalid := pathFrom_valid g n ei l2 hp2
    have hall : ∀ x ∈ ei :: l2, x < g.length := by
      intro x hx
      rcases List.mem_cons.mp hx with hx | hx
      · exact hx ▸ hvalid.1
      · exact hvalid.2 x hx
    have hlen : (ei :: l2).length ≤ g.length :=
      nodup_nat_length_le (ei :: l2) g.length hnd2 hall
    rw [List.length_cons] at hlen
    exact hasNDDAux_complete g n g.length l2 [] ei hp2 (by omega) hnd2
      (fun x _ => List.not_mem_nil x)

/-- Witness for C3 on the DepCheckIndirect graph: `out2.o` (edge 1)
reaches `generated.h` through its manifest-declared implicit input
`headers.stamp` and the phony edge producing it. -/
theorem hasNonDepfileDependency_iff_reach_witness :
    NDDReach dcEdges "generated.h" 1 :=
  (hasNonDepfileDependency_iff_reach dcEdges 1 "generated.h").mp (by decide)

/-! ## The readiness invariant established by the scan -/

theorem foldl_preserves_edges (f : BuildState → Path → BuildState)
    (hf : ∀ st p, (f st p).edges = st.edges) :
    ∀ (l : List Path) (st : BuildState), (l.foldl f st).edges = st.edges := by
  intro l
  induction l with
  | nil => intro st; rfl
  | cons p rest ih =>
    intro st
    rw [List.foldl_cons, ih (f st p), hf st p]

theorem statIfNecessary_edges (fs : FileSystem) (st : BuildState) (p : Path) :
    (statIfNecessary fs st p).edges = st.edges := by
  unfold statIfNecessary
  split <;> rfl

theorem statOutputs_edges (fs : FileSystem) (st : BuildState) (outs : List Path) :
    (statOutputs fs st outs).edges = st.edges :=
  foldl_preserves_edges _ (statIfNecessary_edges fs) outs st

theorem markOutputs_edges (log : Option BuildLog) (st3 : BuildState) (e : Edge)
    (dm : Bool) : (markOutputs log st3 e dm).edges = st3.edges := by
  unfold markOutputs
  apply foldl_preserves_edges
  intro st p
  rfl

theorem getNode_setEdge (st : BuildState) (i : Nat) (e : Edge) (p : Path) :
    getNode (setEdge st i e) p = getNode st p := rfl

theorem get?_set_self {α : Type} :
    ∀ (l : List α) (i : Nat) (a : α), i < l.length → (l.set i a).get? i = some a := by
  intro l
  induction l with
  | nil => intro i a h; simp at h
  | cons x rest ih =>
    intro i a h
    cases i with
    | zero => rfl
    | succ i => exact ih i a (by simpa using h)

theorem get?_set_ne {α : Type} :
    ∀ (l : List α) (i j : Nat) (a : α), i ≠ j → (l.set i a).get? j = l.get? j := by
  intro l
  induction l with
  | nil => intro i j a _; rfl
  | cons x rest ih =>
    intro i j a hne
    cases i with
    | zero =>
      cases j with
      | zero => exact absurd rfl hne
      | succ j => rfl
    | succ i =>
      cases j with
      | zero => rfl
      | succ j => exact ih i j a (fun h => hne (by rw [h]))

/-- Replacing an edge by one with the same outputs does not change which
edge produces any path. -/
theorem inEdgeAux_set (p : Path) :
    ∀ (l : List Edge) (i : Nat) (e2 : Edge) (k : Nat),
      (∀ e1, l.get? i = some e1 → e1.outputs = e2.outputs) →
      inEdgeAux p (l.set i e2) k = inEdgeAux p l k := by
  intro l
  induction l with
  | nil => intro i e2 k _; rfl
  | cons e rest ih =>
    intro i e2 k hout
    cases i with
    | zero =>
      have : e.outputs = e2.outputs := hout e rfl
      rw [List.set_cons_zero, inEdgeAux, inEdgeAux, this]
    | succ i =>
      rw [List.set_cons_succ, inEdgeAux, inEdgeAux]
      split
      · rfl
      · exact ih i e2 (k + 1) (fun e1 h => hout e1 h)

theorem inEdge_set (g : List Edge) (i : Nat) (e2 : Edge) (p : Path)
    (hout : ∀ e1, g.get? i = some e1 → e1.outputs = e2.outputs) :
    inEdge (g.set i e2) p = inEdge g p :=
  inEdgeAux_set p g i e2 0 hout

theorem edgeOutputsClean_eq_true_iff (st : BuildState) (e : Edge) :
    edgeOutputsClean st e = true ↔ ∀ o ∈ e.outputs, (getNode st o).dirty = false := by
  simp only [edgeOutputsClean, List.all_eq_true, Bool.not_eq_true']

theorem edgeInputsReady_eq_true_iff (st : BuildState) (e : Edge) :
    edgeInputsReady st e = true ↔
      ∀ p ∈ e.nonOrderOnlyInputs, ∀ pe epe, inEdge st.edges p = some pe →
        st.edges.get? pe = some epe → epe.outputs_ready = true := by
  rw [edgeInputsReady, List.all_eq_true]
  constructor
  · intro h p hp pe epe h1 h2
    have hx := h p hp
    rw [h1] at hx
    simp only at hx
    rw [h2] at hx
    simpa using hx
  · intro h p hp
    cases h1 : inEdge st.edges p with
    | none => simp
    | some pe =>
      simp only
      cases h2 : st.edges.get? pe with
      | none => simp
      | some epe => exact h p hp pe epe h1 h2

/-- Claim C7, core: after `finishEdge` the edge's `outputs_ready` flag
agrees with the readiness formula read back from the final state. -/
theorem finishEdge_ready_iff (log : Option BuildLog) (fs : FileSystem)
    (stM : BuildState) (ei : Nat) (dm : Bool) (st2 : BuildState) (e2 : Edge)
    (hst : finishEdge log fs stM ei dm = st2)
    (hedge : st2.edges.get? ei = some e2)
    (hnoself : ∀ p ∈ e2.nonOrderOnlyInputs, inEdge st2.edges p ≠ some ei) :
    e2.outputs_ready = true ↔
      ((∀ o ∈ e2.outputs, (getNode st2 o).dirty = false) ∧
       (∀ p ∈ e2.nonOrderOnlyInputs, ∀ pe epe, inEdge st2.edges p = some pe →
          st2.edges.get? pe = some epe → epe.outputs_ready = true)) := by
  rw [finishEdge.eq_def] at hst
  cases hM : stM.edges.get? ei with
  | none =>
    rw [hM] at hst
    simp only at hst
    subst hst
    rw [hM] at hedge
    exact Option.noConfusion hedge
  | some eM =>
    rw [hM] at hst
    simp only at hst
    rw [setEdgeReady] at hst
    have hM4 : (markOutputs log (statOutputs fs stM eM.outputs) eM dm).edges.get? ei =
        some eM := by
      rw [markOutputs_edges, statOutputs_edges]
      exact hM
    rw [hM4] at hst
    simp only at hst
    revert hst
    generalize hv : (edgeOutputsClean (markOutputs log (statOutputs fs stM eM.outputs) eM dm)
        eM && edgeInputsReady (markOutputs log (statOutputs fs stM eM.outputs) eM dm) eM) = v
    generalize hst4 : markOutputs log (statOutputs fs stM eM.outputs) eM dm = st4
    intro hst
    rw [hst4] at hM4
    subst hst
    -- the final state is st4 with edge ei replaced by eM flagged with v
    have hlt : ei < st4.edges.length := get?_some_lt st4.edges ei eM hM4
    have hedge2 : (setEdge st4 ei { eM with outputs_ready := v }).edges.get? ei =
        some { eM with outputs_ready := v } := get?_set_self st4.edges ei _ hlt
    rw [hedge2] at hedge
    have he2 : e2 = { eM with outputs_ready := v } := (Option.some.inj hedge).symm
    subst he2
    have hie : ∀ p, inEdge (setEdge st4 ei { eM with outputs_ready := v }).edges p =
        inEdge st4.edges p := by
      intro p
      exact inEdge_set st4.edges ei _ p
        (fun e1 h => by rw [hM4] at h; rw [Option.some.inj h])
    have houts : ({ eM with outputs_ready := v } : Edge).outputs = eM.outputs := rfl
    have hinps : ({ eM with outputs_ready := v } : Edge).nonOrderOnlyInputs =
        eM.nonOrderOnlyInputs := rfl
    rw [hst4] at hv
    show v = true ↔ _
    constructor
    · intro hvt
      rw [hvt, Bool.and_eq_true] at hv
      obtain ⟨hc, hr⟩ := hv
      have hA := (edgeOutputsClean_eq_true_iff st4 eM).mp hc
      have hB := (edgeInputsReady_eq_true_iff st4 eM).mp hr
      refine ⟨?_, ?_⟩
      · intro o ho
        rw [getNode_setEdge]
        exact hA o ho
      · intro p hp pe epe h1 h2
        rw [hie p] at h1
        have hpe : pe ≠ ei := by
          intro hcontra
          subst hcontra
          exact hnoself p hp ((hie p).trans h1)
        rw [show (setEdge st4 ei { eM with outputs_ready := v }).edges =
            st4.edges.set ei { eM with outputs_ready := v } from rfl] at h2
        rw [get?_set_ne st4.edges ei pe _ (fun h => hpe h.symm)] at h2
        exact hB p hp pe epe h1 h2
    · rintro ⟨hA, hB⟩
      rw [← hv, Bool.and_eq_true]

      refine ⟨(edgeOutputsClean_eq_true_iff st4 eM).mpr ?_,
        (edgeInputsReady_eq_true_iff st4 eM).mpr ?_⟩
      · intro o ho
        have := hA o ho
        rw [getNode_setEdge] at this
        exact this
      · intro p hp pe epe h1 h2
        have h1b : inEdge (setEdge st4 ei { eM with outputs_ready := v }).edges p =
            some pe := by
          rw [hie p]
          exact h1
        have hpe : pe ≠ ei := by
          intro hcontra
          subst hcontra
          exact hnoself p hp h1b
        refine hB p hp pe epe h1b ?_
        rw [show (setEdge st4 ei { eM with outputs_ready := v }).edges =
            st4.edges.set ei { eM with outputs_ready := v } from rfl]
        rw [get?_set_ne st4.edges ei pe _ (fun h => hpe h.symm)]
        exact h2

/-- Claim C7: after a successful `RecomputeDirty(E)` (for an edge that
does not produce one of its own non-order-only inputs),
`outputs_ready(E)` is true iff no output of `E` is dirty and every
non-order-only input that has a producing edge has that edge's
`outputs_ready` true — inputs with no producing edge qualify
trivially. -/
theorem recomputeDirty_outputs_ready_iff (fs : FileSystem) (log : Option BuildLog)
    (fuel : Nat) (st : BuildState) (ei : Nat) (stF : BuildState) (e2 : Edge)
    (hscan : recomputeDirty fs log fuel st ei = some stF)
    (hedge : stF.edges.get? ei = some e2)
    (hnoself : ∀ p ∈ e2.nonOrderOnlyInputs, inEdge stF.edges p ≠ some ei) :
    e2.outputs_ready = true ↔
      ((∀ o ∈ e2.outputs, (getNode stF o).dirty = false) ∧
       (∀ p ∈ e2.nonOrderOnlyInputs, ∀ pe epe, inEdge stF.edges p = some pe →
          stF.edges.get? pe = some epe → epe.outputs_ready = true)) := by
  cases fuel with
  | zero => rw [recomputeDirty] at hscan; exact Option.noConfusion hscan
  | succ fuel =>
    rw [recomputeDirty] at hscan
    split at hscan
    · exact Option.noConfusion hscan
    · rename_i sd hload
      split at hscan
      · exact Option.noConfusion hscan
      · rename_i e0 hge0
        split at hscan
        · exact Option.noConfusion hscan
        · rename_i stM hfold
          exact finishEdge_ready_iff log fs stM ei sd.2 stF e2
            (Option.some.inj hscan) hedge hnoself

/-- Witness for C7 on the successful S4 scan: the final edge is ready,
no output is dirty and the single input has no producing edge. -/
theorem recomputeDirty_outputs_ready_iff_witness :
    c7e2.outputs_ready = true ↔
      ((∀ o ∈ c7e2.outputs, (getNode c7stF o).dirty = false) ∧
       (∀ p ∈ c7e2.nonOrderOnlyInputs, ∀ pe epe, inEdge c7stF.edges p = some pe →
          c7stF.edges.get? pe = some epe → epe.outputs_ready = true)) :=
  recomputeDirty_outputs_ready_iff s4fs none 4 s4st 0 c7stF c7e2
    (by decide) (by decide) (by decide)

end Ninja
